import Mathlib

/-!
Verification of `wcwidth.awk`'s two C helper programs against their
natural-language specification.

* `src/generate-width-data.c` — the range compressor: scans code points
  `0 .. 0x10FFFF`, classifies each with `wcwidth(3)`, and prints a
  `(width, start, end)` record whenever a new range begins.
* `src/test-data/wcswidths.c` — the width harness: reads lines from stdin,
  decodes each with `mbstowcs(3)`, and prints `wcswidth(runes, count - 1)`
  (or `-1` on decode failure) for each line.

The width classifier (`wcwidth`) and the byte decoder (`mbstowcs`) are
external collaborators; the embedding is parametric in them.
-/

namespace WcwidthData

/-- The last Unicode code point, the loop bound of `generate-width-data.c`. -/
def WMAX : Nat := 0x10FFFF

/-- Embedding of the `IS_BOUNDARY(x)` macro of `generate-width-data.c`.
`wchar_t` subtraction `(x) - 1` never underflows for the compared constants:
in C, `0 - 1 = -1` matches none of them, and Nat truncated `0 - 1 = 0`
matches none of them either, so `Nat` subtraction is faithful here. -/
def IS_BOUNDARY (x : Nat) : Bool :=
  (x == 0x80) || (x == 0x800) || (x == 0x10000) || (x == 0x10FFFF) ||
  (x == 0xD800 || (x - 1) == 0xDFFF) ||
  (x == 0xE000 || (x - 1) == 0xF8FF) ||
  (x == 0xF0000 || (x - 1) == 0xFFFFD) ||
  (x == 0x100000 || (x - 1) == 0x10FFFD)

/-- One `width start end` output record of the compressor. `end` is a Lean
keyword, so the field is named `end_`. -/
structure RangeRec where
  width : Int
  start : Nat
  end_ : Nat
deriving Repr, DecidableEq

/-- The loop state of `main` in `generate-width-data.c`: the loop-local
variables `start` and `end`, the outer `previous_width`, and the list of
records printed so far. -/
structure CompState where
  start : Nat
  end_ : Nat
  previous_width : Int
  out : List RangeRec
deriving Repr, DecidableEq

/-- The state on entry to the loop: `previous_width = 0`, `start = 0`,
`end = 0`, nothing printed yet. -/
def initState : CompState := ⟨0, 0, 0, []⟩

/-- One iteration of the loop body of `main` in `generate-width-data.c` at
code point `i`:

    width = wcwidth(i);
    if (!i || width != previous_width || IS_BOUNDARY(i)) {
        if (i && printf("%d %d %d\n", previous_width, start, end) < 0) ...
        start = i;
        previous_width = width;
    }
    end = i;
-/
def compressStep (classify : Nat → Int) (i : Nat) (s : CompState) : CompState :=
  -- `width = classify i` is substituted inline; `end = i` is executed on both
  -- branches, so both branches set `end_ := i`.
  if i = 0 ∨ classify i ≠ s.previous_width ∨ IS_BOUNDARY i = true then
    { start := i, end_ := i, previous_width := classify i,
      out := if i = 0 then s.out else s.out ++ [⟨s.previous_width, s.start, s.end_⟩] }
  else { s with end_ := i }

/-- The state after the loop has processed code points `0, 1, ..., n`. -/
def compressUpTo (classify : Nat → Int) : Nat → CompState
  | 0 => compressStep classify 0 initState
  | n + 1 => compressStep classify (n + 1) (compressUpTo classify n)

/-- The complete record list printed by `generate-width-data.c` for a given
classifier: the output accumulated when the loop terminates after processing
`i = 0x10FFFF`. The program performs no emission after the loop. -/
def emitted (classify : Nat → Int) : List RangeRec :=
  (compressUpTo classify WMAX).out

/-- `covers l a b`: the records of `l`, in order, tile the half-open interval
`[a, b)` exactly: the first starts at `a`, each is nonempty (`start ≤ end`),
each starts right after its predecessor ends, and the last ends at `b - 1`. -/
def covers : List RangeRec → Nat → Nat → Prop
  | [], a, b => a = b
  | r :: t, a, b => r.start = a ∧ a ≤ r.end_ ∧ covers t (r.end_ + 1) b

/-! ### Helper lemmas about `covers` -/

theorem covers_append_singleton {l : List RangeRec} {a b : Nat} (w : Int) (e : Nat)
    (h : covers l a b) (hbe : b ≤ e) : covers (l ++ [⟨w, b, e⟩]) a (e + 1) := by
  induction l generalizing a with
  | nil => simp only [covers] at h; subst h; exact ⟨rfl, hbe, rfl⟩
  | cons r t ih =>
    obtain ⟨h1, h2, h3⟩ := h
    exact ⟨h1, h2, ih h3⟩

theorem covers_le {l : List RangeRec} {a b : Nat} (h : covers l a b) : a ≤ b := by
  induction l generalizing a with
  | nil => simp only [covers] at h; omega
  | cons r t ih =>
    obtain ⟨h1, h2, h3⟩ := h
    have := ih h3
    omega

theorem covers_mem {l : List RangeRec} {a b : Nat} (h : covers l a b)
    {r : RangeRec} (hr : r ∈ l) : a ≤ r.start ∧ r.start ≤ r.end_ ∧ r.end_ < b := by
  induction l generalizing a with
  | nil => cases hr
  | cons q t ih =>
    obtain ⟨h1, h2, h3⟩ := h
    rcases List.mem_cons.mp hr with rfl | hr'
    · have := covers_le h3
      omega
    · have := ih h3 hr'
      omega

theorem covers_cover_iff {l : List RangeRec} {a b : Nat} (h : covers l a b) (x : Nat) :
    (∃ r ∈ l, r.start ≤ x ∧ x ≤ r.end_) ↔ (a ≤ x ∧ x < b) := by
  induction l generalizing a with
  | nil =>
    simp only [covers] at h
    subst h
    simp only [List.not_mem_nil]
    constructor
    · rintro ⟨r, hr, -⟩; cases hr
    · omega
  | cons r t ih =>
    obtain ⟨h1, h2, h3⟩ := h
    have hb := covers_le h3
    constructor
    · rintro ⟨q, hq, hq1, hq2⟩
      rcases List.mem_cons.mp hq with rfl | hq'
      · omega
      · have := covers_mem h3 hq'
        omega
    · rintro ⟨hax, hxb⟩
      by_cases hx : x ≤ r.end_
      · exact ⟨r, List.mem_cons_self r t, by omega, hx⟩
      · obtain ⟨q, hq, hq1, hq2⟩ := (ih h3).mpr (by omega)
        exact ⟨q, List.mem_cons_of_mem r hq, hq1, hq2⟩

theorem covers_chain_succ {l : List RangeRec} {a b : Nat} (h : covers l a b) :
    List.Chain' (fun r1 r2 => r2.start = r1.end_ + 1) l := by
  induction l generalizing a with
  | nil => exact List.chain'_nil
  | cons r t ih =>
    obtain ⟨h1, h2, h3⟩ := h
    refine List.chain'_cons'.mpr ⟨?_, ih h3⟩
    intro q hq
    cases t with
    | nil => cases hq
    | cons q' t' =>
      obtain ⟨g1, g2, g3⟩ := h3
      simp only [List.head?_cons, Option.mem_def, Option.some.injEq] at hq
      subst hq
      exact g1

theorem covers_pairwise_end_lt_start {l : List RangeRec} {a b : Nat} (h : covers l a b) :
    List.Pairwise (fun r1 r2 => r1.end_ < r2.start) l := by
  induction l generalizing a with
  | nil => exact List.Pairwise.nil
  | cons r t ih =>
    obtain ⟨h1, h2, h3⟩ := h
    refine List.Pairwise.cons ?_ (ih h3)
    intro q hq
    have := covers_mem h3 hq
    omega

theorem covers_pairwise_start_lt {l : List RangeRec} {a b : Nat} (h : covers l a b) :
    List.Pairwise (fun r1 r2 => r1.start < r2.start) l := by
  induction l generalizing a with
  | nil => exact List.Pairwise.nil
  | cons r t ih =>
    obtain ⟨h1, h2, h3⟩ := h
    refine List.Pairwise.cons ?_ (ih h3)
    intro q hq
    have := covers_mem h3 hq
    omega

/-! ### The loop invariant of the compressor -/

/-- The relation the spec requires between two consecutively emitted records:
their widths differ, or the second starts at a mandatory boundary. -/
def adjOK (r1 r2 : RangeRec) : Prop :=
  r1.width ≠ r2.width ∨ IS_BOUNDARY r2.start = true

/-- The pending range (which will supply the width and start of the next
emitted record) must itself stand in `adjOK` to the last emitted record. -/
def pendingOK (s : CompState) : Prop :=
  ∀ r, s.out.getLast? = some r → (r.width ≠ s.previous_width ∨ IS_BOUNDARY s.start = true)

/-- The full invariant of the compressor loop after processing `0 .. n`. -/
def Inv (classify : Nat → Int) (n : Nat) (s : CompState) : Prop :=
  s.end_ = n ∧ s.start ≤ n ∧ s.previous_width = classify s.start ∧
  covers s.out 0 s.start ∧
  List.Chain' adjOK s.out ∧ pendingOK s ∧
  (∀ x, x ≤ n → IS_BOUNDARY x = true → (∃ r ∈ s.out, r.start = x) ∨ s.start = x) ∧
  (IS_BOUNDARY n = true → s.start = n)

theorem compress_inv (classify : Nat → Int) :
    ∀ n, Inv classify n (compressUpTo classify n) := by
  intro n
  induction n with
  | zero =>
    have h0 : compressUpTo classify 0 = ⟨0, 0, classify 0, []⟩ := by
      rw [compressUpTo, compressStep, if_pos (Or.inl rfl), if_pos rfl]
      rfl
    rw [h0]
    refine ⟨rfl, Nat.le_refl 0, rfl, rfl, List.chain'_nil, ?_, ?_, fun _ => rfl⟩
    · intro r hr
      simp at hr
    · intro x hx hbx
      have hx0 : x = 0 := Nat.le_zero.mp hx
      subst hx0
      exact absurd hbx (by decide)
  | succ n ih =>
    obtain ⟨hend, hstart, hw, hcov, hchain, hpend, hbnd, hbndnow⟩ := ih
    set s := compressUpTo classify n with hs
    show Inv classify (n + 1) (compressStep classify (n + 1) s)
    by_cases hc : n + 1 = 0 ∨ classify (n + 1) ≠ s.previous_width ∨ IS_BOUNDARY (n + 1) = true
    · -- a new range begins at n + 1; the pending range is emitted
      have hstep : compressStep classify (n + 1) s =
          ⟨n + 1, n + 1, classify (n + 1),
           s.out ++ [⟨s.previous_width, s.start, s.end_⟩]⟩ := by
        rw [compressStep, if_pos hc, if_neg (Nat.succ_ne_zero n)]
      rw [hstep]
      have hc' : classify (n + 1) ≠ s.previous_width ∨ IS_BOUNDARY (n + 1) = true := by
        rcases hc with h | h | h
        · exact absurd h (Nat.succ_ne_zero n)
        · exact Or.inl h
        · exact Or.inr h
      refine ⟨rfl, Nat.le_refl _, rfl, ?_, ?_, ?_, ?_, fun _ => rfl⟩
      · -- covers: append the newly emitted record
        show covers (s.out ++ [⟨s.previous_width, s.start, s.end_⟩]) 0 (n + 1)
        rw [hend]
        exact covers_append_singleton _ _ hcov hstart
      · -- the chain extends across the appended record
        refine List.chain'_append.mpr ⟨hchain, List.chain'_singleton _, ?_⟩
        intro r1 hr1 r2 hr2
        simp only [List.head?_cons, Option.mem_def, Option.some.injEq] at hr2
        subst hr2
        exact hpend r1 hr1
      · -- pendingOK for the new pending range
        intro r hr
        rw [show (⟨n + 1, n + 1, classify (n + 1),
              s.out ++ [⟨s.previous_width, s.start, s.end_⟩]⟩ : CompState).out =
            s.out ++ [⟨s.previous_width, s.start, s.end_⟩] from rfl,
          List.getLast?_concat] at hr
        injection hr with hr
        subst hr
        rcases hc' with h | h
        · exact Or.inl fun he => h he.symm
        · exact Or.inr h
      · -- every boundary point processed so far starts a record or is pending
        intro x hx hbx
        rcases Nat.lt_or_ge x (n + 1) with hlt | hge
        · rcases hbnd x (by omega) hbx with ⟨r, hr, hrs⟩ | hps
          · exact Or.inl ⟨r, List.mem_append_left _ hr, hrs⟩
          · exact Or.inl ⟨⟨s.previous_width, s.start, s.end_⟩,
              List.mem_append_right _ (List.mem_singleton.mpr rfl), hps⟩
        · exact Or.inr (show n + 1 = x by omega)
    · -- no new range: only `end` advances
      have hstep : compressStep classify (n + 1) s = { s with end_ := n + 1 } := by
        rw [compressStep, if_neg hc]
      rw [hstep]
      push_neg at hc
      obtain ⟨-, hweq, hbf⟩ := hc
      refine ⟨rfl, show s.start ≤ n + 1 by omega, hw, hcov, hchain, hpend, ?_, ?_⟩
      · intro x hx hbx
        rcases Nat.lt_or_ge x (n + 1) with hlt | hge
        · exact hbnd x (by omega) hbx
        · have hx1 : x = n + 1 := by omega
          subst hx1
          rw [hbx] at hbf
          cases hbf rfl
      · intro hbx
        rw [hbx] at hbf
        cases hbf rfl

end WcwidthData

namespace WcwidthData

/-- After the last iteration (`i = 0x10FFFF`), the pending range starts at
`0x10FFFF` itself, because `0x10FFFF` is a mandatory boundary; this pending
range is never printed. -/
theorem final_start : ∀ classify : Nat → Int,
    (compressUpTo classify WMAX).start = WMAX := by
  intro classify
  exact (compress_inv classify WMAX).2.2.2.2.2.2.2 (by decide)

/-- The emitted records tile `[0, 0x10FFFF)`, i.e. `[0, 0x10FFFE]`. -/
theorem emitted_covers (classify : Nat → Int) :
    covers (emitted classify) 0 WMAX := by
  have h := (compress_inv classify WMAX).2.2.2.1
  rwa [final_start classify] at h

/- Keep the elaborator from attempting the 1114112-step reduction of
`compressUpTo` whenever the classifier is instantiated with a concrete
function; every fact below follows from the loop invariant, not from
evaluation. -/
attribute [irreducible] compressUpTo

/-- C4: the boundary predicate holds exactly on the eleven listed code
points (`0xE000` arises from both the surrogate-end and the PUA-start
disjuncts). -/
theorem is_boundary_iff_mem_eleven (x : Nat) :
    IS_BOUNDARY x = true ↔
      (x = 0x80 ∨ x = 0x800 ∨ x = 0x10000 ∨ x = 0x10FFFF ∨ x = 0xD800 ∨
       x = 0xE000 ∨ x = 0xF900 ∨ x = 0xF0000 ∨ x = 0xFFFFE ∨
       x = 0x100000 ∨ x = 0x10FFFE) := by
  simp only [IS_BOUNDARY, Bool.or_eq_true, beq_iff_eq]
  omega

/-- C1 (amended): for every classifier, the emitted records tile exactly
`[0, 0x10FFFE]` in emission order with no gaps and no overlaps; a code point
lies in some emitted range iff it is at most `0x10FFFE`. (The program
performs no emission after the loop, so the final pending range —
the single point `0x10FFFF` — is dropped.) -/
theorem emitted_union_exact_below_last (classify : Nat → Int) :
    covers (emitted classify) 0 WMAX ∧
    ∀ x, (∃ r ∈ emitted classify, r.start ≤ x ∧ x ≤ r.end_) ↔ x ≤ 0x10FFFE := by
  refine ⟨emitted_covers classify, fun x => ?_⟩
  rw [covers_cover_iff (emitted_covers classify) x]
  show 0 ≤ x ∧ x < 0x10FFFF ↔ x ≤ 0x10FFFE
  omega

/-- C1 (as stated) is false: for the constant-zero classifier the union of
the emitted intervals is not `[0, 0x10FFFF]` — no emitted range contains
`0x10FFFF`, because the final pending range is never printed. -/
theorem emitted_union_misses_last :
    ¬ ∀ x, x ≤ 0x10FFFF → ∃ r ∈ emitted (fun _ => 0), r.start ≤ x ∧ x ≤ r.end_ := by
  intro h
  have h1 := h 0x10FFFF (Nat.le_refl _)
  have h2 := (covers_cover_iff (emitted_covers (fun _ => 0)) 0x10FFFF).mp h1
  have h3 : (0x10FFFF : Nat) < 0x10FFFF := h2.2
  omega

/-- C2 (amended): every mandatory boundary code point except `0x10FFFF`
is the `start` of some emitted record, for every classifier. -/
theorem boundary_starts_emitted (classify : Nat → Int) (x : Nat)
    (hb : IS_BOUNDARY x = true) (hx : x ≠ 0x10FFFF) :
    ∃ r ∈ emitted classify, r.start = x := by
  have h11 := (is_boundary_iff_mem_eleven x).mp hb
  have hxle : x ≤ WMAX := by
    show x ≤ 0x10FFFF
    omega
  rcases (compress_inv classify WMAX).2.2.2.2.2.2.1 x hxle hb with h | h
  · exact h
  · rw [final_start classify] at h
    exact absurd h.symm hx

/-- Witness for `boundary_starts_emitted` at the boundary `0x80` and the
constant-zero classifier. -/
theorem boundary_starts_emitted_witness :
    IS_BOUNDARY 0x80 = true ∧ (0x80 : Nat) ≠ 0x10FFFF ∧
    ∃ r ∈ emitted (fun _ => 0), r.start = 0x80 :=
  ⟨by decide, by decide, boundary_starts_emitted (fun _ => 0) 0x80 (by decide) (by decide)⟩

/-- C2 (as stated) is false at the boundary point `0x10FFFF`: for the
constant-zero classifier no emitted record starts there (the record that
would is the pending one the program never prints). -/
theorem no_emitted_start_at_last :
    ¬ ∃ r ∈ emitted (fun _ => 0), r.start = 0x10FFFF := by
  rintro ⟨r, hr, hrs⟩
  have hm := covers_mem (emitted_covers (fun _ => 0)) hr
  have h1 : (0x10FFFF : Nat) ≤ r.end_ := hrs ▸ hm.2.1
  have h2 : r.end_ < 0x10FFFF := hm.2.2
  omega

/-- C3: consecutively emitted ranges never share a width unless the second
range starts at a mandatory boundary code point, for every classifier. -/
theorem emitted_consecutive_widths_differ (classify : Nat → Int) :
    List.Chain' (fun r1 r2 => r1.width ≠ r2.width ∨ IS_BOUNDARY r2.start = true)
      (emitted classify) :=
  (compress_inv classify WMAX).2.2.2.2.1

/-- C9: emitted records come in strictly increasing `start` order, each
satisfies `start ≤ end`, each record starts exactly one past its
predecessor's `end`, and no two emitted ranges overlap. -/
theorem emitted_ranges_ordered (classify : Nat → Int) :
    (∀ r ∈ emitted classify, r.start ≤ r.end_) ∧
    List.Chain' (fun r1 r2 => r2.start = r1.end_ + 1) (emitted classify) ∧
    List.Pairwise (fun r1 r2 => r1.start < r2.start) (emitted classify) ∧
    List.Pairwise (fun r1 r2 => r1.end_ < r2.start) (emitted classify) := by
  have h := emitted_covers classify
  exact ⟨fun r hr => (covers_mem h hr).2.1, covers_chain_succ h,
    covers_pairwise_start_lt h, covers_pairwise_end_lt_start h⟩

/-! ### The width harness, `src/test-data/wcswidths.c` -/

/-- `LINE_MAX` from `limits.h` on the reference platform (the POSIX minimum,
2048): the element count of `wchar_t runes[LINE_MAX]`. -/
def LINE_MAX : Nat := 2048

/-- `sizeof(wchar_t)` on the reference platform (4 bytes). -/
def sizeof_wchar_t : Nat := 4

/-- `sizeof(runes)` for `wchar_t runes[LINE_MAX]`: a byte count,
`LINE_MAX * sizeof(wchar_t)`. This is the third argument the harness passes
to `mbstowcs`. -/
def sizeof_runes : Nat := LINE_MAX * sizeof_wchar_t

/-- Number of `wchar_t` array slots written by
`mbstowcs(runes, line, sizeof(runes))` when `line` decodes successfully to
`k` wide characters. By the POSIX contract of `mbstowcs(dst, src, n)`, the
call stores at most `n` wide characters into `dst` and appends the
terminating null wide character only while still within that limit, so it
touches `min (k + 1) n` slots with `n = sizeof(runes)`. -/
def mbstowcs_slots_written (k : Nat) : Nat := min (k + 1) sizeof_runes

/-- A line `getline` can hand to `mbstowcs`: 2048 `'A'` bytes followed by
a newline. `getline` reallocates its own heap buffer, so the line arrives
intact regardless of `LINE_MAX`; in the `C.UTF-8` locale it decodes to
2049 wide characters. -/
def long_line : List Nat := List.replicate 2048 65 ++ [10]

/-- The `getline` loop's line splitting: standard input is cut after every
newline byte (10), each line keeping its newline; a trailing chunk with no
newline is still returned as a final line. `acc` holds the bytes of the
current line read so far. -/
def getlinesAux (acc : List Nat) : List Nat → List (List Nat)
  | [] => if acc = [] then [] else [acc]
  | c :: rest =>
    if c = 10 then (acc ++ [10]) :: getlinesAux [] rest
    else getlinesAux (acc ++ [c]) rest

/-- All lines `getline` successively returns for a given standard input. -/
def getlines (s : List Nat) : List (List Nat) := getlinesAux [] s

/-- `wcswidth(3)` (the external width collaborator) on the first `n` wide
characters of `s`: `-1` when some inspected character is nonprintable
(negative `wcwidth`), otherwise the sum of the `wcwidth` values. -/
def wcswidth (classify : Nat → Int) (s : List Nat) (n : Nat) : Int :=
  if (s.take n).any (fun c => decide (classify c < 0)) then -1
  else ((s.take n).map classify).sum

/-- The body of the harness loop for one line, given the result of the
`mbstowcs` decode of that line (`none` models the `(size_t) -1` failure
return):

    width = -1;
    if ((count = mbstowcs(runes, line, sizeof(runes))) != (size_t) -1)
        width = wcswidth(runes, count - 1);

For `count = 0` the C expression `count - 1` wraps to `SIZE_MAX`, but
`wcswidth` then stops at the terminating null before inspecting any
character and returns 0, which `Nat` truncated `0 - 1 = 0` models exactly. -/
def lineWidth (classify : Nat → Int) (decoded : Option (List Nat)) : Int :=
  match decoded with
  | none => -1
  | some runes => wcswidth classify runes (runes.length - 1)

/-- A whole harness run: split standard input into lines, decode each line
with the external decoder, and print one integer per line in input order. -/
def harnessRun (classify : Nat → Int) (decode : List Nat → Option (List Nat))
    (input : List Nat) : List Int :=
  (getlines input).map fun l => lineWidth classify (decode l)

/-! ### Harness claims -/

/-- C5 fails on the code: the harness passes `sizeof(runes)` — a byte count,
`LINE_MAX * sizeof(wchar_t) = 8192` — where `mbstowcs` expects an element
count, so a line decoding to 2049 wide characters makes `mbstowcs` write
2050 `wchar_t` slots into the 2048-element `runes` array: an out-of-bounds
write (undefined behavior), contradicting the claimed bounds safety. -/
theorem mbstowcs_call_exceeds_runes_bound :
    LINE_MAX < mbstowcs_slots_written long_line.length ∧
    mbstowcs_slots_written long_line.length = 2050 := by
  have h : long_line.length = 2049 := by
    rw [long_line, List.length_append, List.length_replicate]
    rfl
  rw [h]
  constructor <;> decide

/-- C6: a line whose decode fails contributes exactly `-1` to the output at
its own position, and every other line is still processed: the output has
one entry per input line regardless of decode failures. -/
theorem decode_failure_is_local (classify : Nat → Int)
    (decode : List Nat → Option (List Nat)) (input : List Nat) :
    (harnessRun classify decode input).length = (getlines input).length ∧
    ∀ (k : Nat) (l : List Nat), (getlines input)[k]? = some l → decode l = none →
      (harnessRun classify decode input)[k]? = some (-1) := by
  refine ⟨List.length_map _ _, ?_⟩
  intro k l hk hd
  rw [harnessRun, List.getElem?_map, hk]
  simp [lineWidth, hd]

/-- Witness for `decode_failure_is_local`: an always-failing decoder on the
input `"A\n"` yields `-1` for line 0. -/
theorem decode_failure_is_local_witness :
    (getlines [65, 10])[0]? = some [65, 10] ∧
    (harnessRun (fun _ => 1) (fun _ => none) [65, 10])[0]? = some (-1) :=
  ⟨by decide,
   (decode_failure_is_local (fun _ => 1) (fun _ => none) [65, 10]).2 0 [65, 10]
     (by decide) rfl⟩

/-- C7: a line that decodes to `cs ++ [newline]` is reported as the total
classified width of `cs` (the trailing terminator is excluded), `-1` when
some code point of `cs` has negative width; concretely `"A\n"` with
`wcwidth('A') = 1` yields 1, `"\n"` yields 0, and an undecodable line
yields `-1`. -/
theorem line_width_semantics (classify : Nat → Int) (cs : List Nat)
    (hA : classify 65 = 1) :
    ((∃ c ∈ cs, classify c < 0) → lineWidth classify (some (cs ++ [10])) = -1) ∧
    ((∀ c ∈ cs, 0 ≤ classify c) →
      lineWidth classify (some (cs ++ [10])) = ((cs.map classify).sum)) ∧
    lineWidth classify (some [65, 10]) = 1 ∧
    lineWidth classify (some [10]) = 0 ∧
    lineWidth classify none = -1 := by
  have hlen : (cs ++ [10]).length - 1 = cs.length := by simp
  have htake : (cs ++ [10]).take cs.length = cs := List.take_left cs [10]
  have hw : lineWidth classify (some (cs ++ [10])) = wcswidth classify (cs ++ [10]) cs.length := by
    rw [lineWidth, hlen]
  refine ⟨?_, ?_, ?_, ?_, rfl⟩
  · rintro ⟨c, hc, hneg⟩
    rw [hw, wcswidth, htake, if_pos]
    rw [List.any_eq_true]
    exact ⟨c, hc, decide_eq_true hneg⟩
  · intro hpos
    rw [hw, wcswidth, htake, if_neg]
    rw [List.any_eq_true]
    rintro ⟨c, hc, hneg⟩
    exact absurd (of_decide_eq_true hneg) (not_lt.mpr (hpos c hc))
  · simp [lineWidth, wcswidth, hA]
  · simp [lineWidth, wcswidth]

/-- Witness for `line_width_semantics` with the constant-1 classifier. -/
theorem line_width_semantics_witness :
    lineWidth (fun _ => 1) (some [65, 10]) = 1 ∧
    lineWidth (fun _ => 1) (some [10]) = 0 ∧
    lineWidth (fun _ => 1) none = -1 :=
  ⟨(line_width_semantics (fun _ => 1) [] rfl).2.2.1,
   (line_width_semantics (fun _ => 1) [] rfl).2.2.2.1,
   (line_width_semantics (fun _ => 1) [] rfl).2.2.2.2⟩

/-- C8 (as stated) is false: concatenating the file `"A"` (no trailing
newline) with the file `"B\n"` merges the boundary lines, so one run on the
concatenation prints `[2]` while the two separate runs print `[0]` and
`[1]` (identity decoder, every code point of width 1). -/
theorem harness_concat_counterexample :
    harnessRun (fun _ => 1) some ([65] ++ [66, 10]) ≠
      harnessRun (fun _ => 1) some [65] ++ harnessRun (fun _ => 1) some [66, 10] := by
  decide

/-- Unfolding equation of `getlinesAux` on the empty stream. -/
theorem getlinesAux_nil (acc : List Nat) :
    getlinesAux acc [] = if acc = [] then [] else [acc] := rfl

/-- Unfolding equation of `getlinesAux` on a nonempty stream. -/
theorem getlinesAux_cons (acc : List Nat) (c : Nat) (rest : List Nat) :
    getlinesAux acc (c :: rest) =
      if c = 10 then (acc ++ [10]) :: getlinesAux [] rest
      else getlinesAux (acc ++ [c]) rest := rfl

/-- `getlinesAux` distributes over an append whose first part ends in a
newline: the line accumulator is empty again at the file boundary. -/
theorem getlinesAux_append (b : List Nat) :
    ∀ (a acc : List Nat), a.getLast? = some 10 →
      getlinesAux acc (a ++ b) = getlinesAux acc a ++ getlinesAux [] b := by
  intro a
  induction a with
  | nil =>
    intro acc h
    simp at h
  | cons c a' ih =>
    intro acc h
    cases a' with
    | nil =>
      have hc : c = 10 := by simpa using h
      subst hc
      rw [List.cons_append, List.nil_append, getlinesAux_cons, if_pos rfl,
        getlinesAux_cons, if_pos rfl, getlinesAux_nil, if_pos rfl, List.cons_append,
        List.nil_append]
    | cons d a'' =>
      have hlast : (d :: a'').getLast? = some 10 := by
        rwa [List.getLast?_cons_cons] at h
      by_cases hc : c = 10
      · subst hc
        rw [List.cons_append, getlinesAux_cons, if_pos rfl, getlinesAux_cons,
          if_pos rfl, ih [] hlast, List.cons_append]
      · rw [List.cons_append, getlinesAux_cons, if_neg hc, getlinesAux_cons,
          if_neg hc]
        exact ih (acc ++ [c]) hlast

/-- C8 (amended): the harness output on the concatenation of two input
files equals the concatenation of the two separate outputs, provided the
first file is empty or ends with a newline (so that no line straddles the
file boundary). -/
theorem harness_concat_of_terminated (classify : Nat → Int)
    (decode : List Nat → Option (List Nat)) (a b : List Nat)
    (h : a = [] ∨ a.getLast? = some 10) :
    harnessRun classify decode (a ++ b) =
      harnessRun classify decode a ++ harnessRun classify decode b := by
  rcases h with rfl | h
  · simp [harnessRun, getlines, getlinesAux]
  · rw [harnessRun, harnessRun, harnessRun, getlines, getlines, getlines,
      getlinesAux_append b a [] h, List.map_append]

/-- Witness for `harness_concat_of_terminated` on the files `"A\n"` and
`"B\n"`. -/
theorem harness_concat_of_terminated_witness :
    (([65, 10] : List Nat) = [] ∨ ([65, 10] : List Nat).getLast? = some 10) ∧
    harnessRun (fun _ => 1) some ([65, 10] ++ [66, 10]) =
      harnessRun (fun _ => 1) some [65, 10] ++ harnessRun (fun _ => 1) some [66, 10] :=
  ⟨Or.inr (by decide),
   harness_concat_of_terminated (fun _ => 1) some [65, 10] [66, 10] (Or.inr (by decide))⟩

/-- C10: the harness always drops the last decoded code point — the
reported width of a line decoding to `cs ++ [c]` does not depend on `c` at
all — so the final line `"A"` with no trailing newline (one width-1
character and no terminator) is reported as 0, not 1. -/
theorem unterminated_last_still_excluded (classify : Nat → Int)
    (decode : List Nat → Option (List Nat)) (cs : List Nat) (c1 c2 : Nat)
    (hdec : decode [65] = some [65]) (_hA : classify 65 = 1) :
    lineWidth classify (some (cs ++ [c1])) = lineWidth classify (some (cs ++ [c2])) ∧
    harnessRun classify decode [65] = [0] := by
  constructor
  · rw [lineWidth, lineWidth]
    have h1 : (cs ++ [c1]).length - 1 = cs.length := by simp
    have h2 : (cs ++ [c2]).length - 1 = cs.length := by simp
    rw [h1, h2, wcswidth, wcswidth, List.take_left cs [c1], List.take_left cs [c2]]
  · have hget : getlines [65] = [[65]] := by decide
    rw [harnessRun, hget, List.map_cons, List.map_nil, hdec]
    rfl

/-- Witness for `unterminated_last_still_excluded` with the identity decoder
and the constant-1 classifier. -/
theorem unterminated_last_still_excluded_witness :
    lineWidth (fun _ => 1) (some ([66] ++ [65])) = lineWidth (fun _ => 1) (some ([66] ++ [10])) ∧
    harnessRun (fun _ => 1) some [65] = [0] :=
  unterminated_last_still_excluded (fun _ => 1) some [66] 65 10 rfl rfl

end WcwidthData
